import Mathlib

/-!
Verification of the crawl/index/rank/query core of `src/crawlweb.py`.

Strings are modelled as `List Char` (`Str`).  Python dictionaries are
modelled as association lists in insertion order (`List (Str × β)`); a
well-formed dictionary has no duplicate keys.  Python sets built by
repeated `.add` are modelled as duplicate-free lists (`insertUniq`), so
that definitions stay executable.  Python floats are modelled as exact
rationals (`ℚ`); the float constant `0.8` is modelled as `4/5`.
-/

namespace CrawlWeb

abbrev Str := List Char

/-- ASCII whitespace recognised by Python `str.split()`. -/
def pyIsSpace (c : Char) : Bool :=
  c = ' ' || c = '\t' || c = '\n' || c = '\r' || c = Char.ofNat 11 || c = Char.ofNat 12

/-- Helper for `pySplit`: `acc` holds the (reversed) current word. -/
def pySplitAux : List Char → List Char → List Str
  | [], acc => if acc = [] then [] else [acc.reverse]
  | c :: rest, acc =>
    if pyIsSpace c then
      if acc = [] then pySplitAux rest [] else acc.reverse :: pySplitAux rest []
    else pySplitAux rest (c :: acc)

/-- Python `content.split()`: split on whitespace runs, no empty tokens. -/
def pySplit (s : Str) : List Str := pySplitAux s []

/-- Dictionary access: value stored under key `k`, within the model of a
Python dict as an association list (first matching entry wins). -/
def getVal {β : Type} (m : List (Str × β)) (k : Str) : Option β :=
  match m with
  | [] => none
  | kv :: rest => if kv.1 = k then some kv.2 else getVal rest k

/-- The inverted index: token ↦ ordered list of URL occurrences. -/
abbrev IndexT := List (Str × List Str)

/-- `index[tok]` with default `[]` (used only to state properties). -/
def lookupList (index : IndexT) (tok : Str) : List Str :=
  (getVal index tok).getD []

/-- `addToIndex(index, keyword, url)` from the source: append `url` to the
list under `keyword`, creating the key with `[url]` if absent. -/
def addToIndex (index : IndexT) (keyword : Str) (url : Str) : IndexT :=
  if (getVal index keyword).isSome then
    index.map (fun kv => if kv.1 = keyword then (kv.1, kv.2 ++ [url]) else kv)
  else
    index ++ [(keyword, [url])]

/-- `addPageToIndex(index, url, content)` from the source: split the content
on whitespace and record `url` under every resulting word, in order. -/
def addPageToIndex (index : IndexT) (url : Str) (content : Str) : IndexT :=
  (pySplit content).foldl (fun ix word => addToIndex ix word url) index

/-- Index of the first occurrence of `pat` as a contiguous substring of
`s`, if any (Python `str.find` without a start offset). -/
def findPat (pat : Str) : Str → Option Nat
  | [] => if pat = [] then some 0 else none
  | c :: tl => if pat.isPrefixOf (c :: tl) then some 0 else (findPat pat tl).map (· + 1)

/-- Python `s.find(pat, start)`: first index `≥ start` where `pat` occurs,
or `-1` when there is none. -/
def pyFind (pat s : Str) (start : Nat) : Int :=
  match findPat pat (s.drop start) with
  | none => -1
  | some i => ((start + i : Nat) : Int)

/-- Python slice-stop normalisation: the effective stop index of `s[a:b]`
for a list of length `n` and a possibly negative `b`. -/
def pyStop (n : Nat) (i : Int) : Nat :=
  if i < 0 then ((n : Int) + i).toNat else min i.toNat n

/-- The double-quote character (used by the anchor-attribute scan). -/
def quoteChar : Char := Char.ofNat 34

def aHrefPat : Str := "<a href=".data

def httpPre : Str := "http://".data

def httpsPre : Str := "https://".data

/-- Final filter of `linkFinder` (source line 138): keep only values that
start with `http://` or `https://`. -/
def keepLink (link : Str) : Bool :=
  httpPre.isPrefixOf link || httpsPre.isPrefixOf link

/-- `urls.add(link)` on the Python set, modelled as ordered insertion
without duplicates. -/
def insertUniq (urls : List Str) (link : Str) : List Str :=
  if link ∈ urls then urls else urls ++ [link]

/-- The candidate transformation of `linkFinder` (source lines 121–135):
strip the fragment, complete protocol-relative values, resolve relative
values against the base URL (left unchanged when no base is supplied). -/
def transformLink (baseUrl link : Str) : Str :=
  let link1 := if '#' ∈ link then link.takeWhile (fun c => c ≠ '#') else link
  let link2 := if (['/', '/'] : Str).isPrefixOf link1 then "http:".data ++ link1 else link1
  if !httpPre.isPrefixOf link2 && !httpsPre.isPrefixOf link2 then
    if baseUrl ≠ [] then
      if (['/'] : Str).isPrefixOf link2 then baseUrl ++ link2 else baseUrl ++ '/' :: link2
    else link2
  else link2

/-- The scanning loop of `linkFinder` (source lines 111–139), with explicit
fuel: one unit per loop iteration, `none` when the fuel runs out.  Every
iteration that finds a closing quote (`endQuote ≥ 0`) drops at least one
character from the page, so fuel `page.length + 1` suffices for every
terminating run of the source loop; `none` at that fuel means the page
stopped shrinking and the source loop runs forever. -/
def linkFinderAux (baseUrl : Str) : Nat → Str → List Str → Option (List Str)
  | 0, _, _ => none
  | fuel + 1, page, urls =>
    match findPat aHrefPat page with
    | none => some urls
    | some startPoint =>
      let startQuote : Int := pyFind [quoteChar] page startPoint
      let endQuote : Int := pyFind [quoteChar] page (startQuote + 1).toNat
      let link := (page.take (pyStop page.length endQuote)).drop (startQuote + 1).toNat
      let page1 := page.drop (endQuote + 1).toNat
      let link1 := transformLink baseUrl link
      let urls1 := if keepLink link1 then insertUniq urls link1 else urls
      linkFinderAux baseUrl fuel page1 urls1

/-- `linkFinder(page, baseUrl=None)` from the source; `baseUrl = []` models
the absent / empty base (`baseUrl = baseUrl or ''`). -/
def linkFinder (page : Str) (baseUrl : Str := []) : Option (List Str) :=
  linkFinderAux baseUrl (page.length + 1) page []

/-- Modelled from the spec (§4.1, steps 1–4): the per-candidate pipeline in
the spec's own words — strip the fragment, complete `//` values with
`http:`, resolve non-absolute values against a supplied base (dropping
them when no base is supplied), and keep only `http(s)`-prefixed results.
Used only to compare against `transformLink`/`keepLink`. -/
def specCandidate (baseUrl link : Str) : Option Str :=
  let l1 := link.takeWhile (fun c => c ≠ '#')
  let l2 := if (['/', '/'] : Str).isPrefixOf l1 then "http:".data ++ l1 else l1
  let l3 :=
    if httpPre.isPrefixOf l2 || httpsPre.isPrefixOf l2 then some l2
    else if baseUrl ≠ [] then
      some (if (['/'] : Str).isPrefixOf l2 then baseUrl ++ l2 else baseUrl ++ '/' :: l2)
    else none
  match l3 with
  | none => none
  | some l => if keepLink l then some l else none

/-- The link graph: crawled URL ↦ list of distinct outbound URLs. -/
abbrev GraphT := List (Str × List Str)

/-- `union(set1, set2)` from the source (`set1.update(set2)`), on the
worklist model of the pending set: append the elements not yet present. -/
def unionL (s₁ s₂ : List Str) : List Str :=
  s₁ ++ s₂.filter (fun x => x ∉ s₁)

/-- The crawl loop of `crawlWeb` (source lines 159–167), with explicit
fuel (one unit per loop iteration) and the fetch collaborator `content`
(`getPage`: page text, or the empty string on any failure, per its
contract).  The pending set is modelled as a duplicate-free worklist
consumed from the head; `fetched` is instrumentation recording each
`getPage` call.  `none` means the fuel ran out or `linkFinder` diverged. -/
def crawlWebAux (content : Str → Str) :
    Nat → List Str → Finset Str → IndexT → GraphT → List Str →
    Option (IndexT × GraphT × Finset Str × List Str)
  | _, [], crawled, index, graph, fetched => some (index, graph, crawled, fetched)
  | 0, _ :: _, _, _, _, _ => none
  | fuel + 1, page :: rest, crawled, index, graph, fetched =>
    if page ∈ crawled then
      crawlWebAux content fuel rest crawled index graph fetched
    else
      match linkFinder (content page) with
      | none => none
      | some outlinks =>
        crawlWebAux content fuel (unionL rest outlinks) (insert page crawled)
          (addPageToIndex index page (content page))
          (graph ++ [(page, outlinks)]) (fetched ++ [page])

/-- `crawlWeb(seed)` from the source, given the fetch collaborator and a
fuel bound on the number of loop iterations. -/
def crawlWeb (content : Str → Str) (seed : Str) (fuel : Nat) :
    Option (IndexT × GraphT × Finset Str × List Str) :=
  crawlWebAux content fuel [seed] ∅ [] [] []

/-- The per-page rank assignment. -/
abbrev RanksT := List (Str × ℚ)

/-- `damping = 0.8` from the source, modelled exactly as `4/5`. -/
def damping : ℚ := 4 / 5

/-- `numloops = 10` from the source. -/
def numloops : Nat := 10

/-- `ranks.get(u, 0)`-style access; inside `computeRanks` every key looked
up is present (the source indexes the dict directly), so the default is
never produced there. -/
def getRank (ranks : RanksT) (u : Str) : ℚ := (getVal ranks u).getD 0

/-- One `newrank[page]` accumulation (source lines 192–195): start from
`(1 - damping)/npages`, then for every node add
`damping * ranks[node]/len(graph[node])` when `page ∈ graph[node]`. -/
def newRankOf (graph : GraphT) (ranks : RanksT) (page : Str) : ℚ :=
  graph.foldl
    (fun acc nv =>
      if page ∈ nv.2 then acc + damping * (getRank ranks nv.1 / (nv.2.length : ℚ))
      else acc)
    ((1 - damping) / (graph.length : ℚ))

/-- One synchronous sweep (source lines 190–196): the whole new rank dict
is built from the old one, then replaces it. -/
def rankStep (graph : GraphT) (ranks : RanksT) : RanksT :=
  graph.map (fun pv => (pv.1, newRankOf graph ranks pv.1))

/-- `computeRanks(graph)` from the source: every page starts at
`1/npages`, then exactly `numloops` synchronous sweeps are run (no
convergence check). -/
def computeRanks (graph : GraphT) : RanksT :=
  (rankStep graph)^[numloops] (graph.map (fun pv => (pv.1, 1 / (graph.length : ℚ))))

/-- Modelled from the spec (§4.4): the sweep formula
`newRank(p) = (1-d)/N + d * Σ over q with p ∈ outlinks(q) of oldRank(q)/|outlinks(q)|`.
Used only to compare against `computeRanks`. -/
def specNewRank (graph : GraphT) (r : Str → ℚ) (p : Str) : ℚ :=
  (1 - damping) / (graph.length : ℚ) +
    damping * ∑ qv ∈ graph.toFinset.filter (fun qv => p ∈ qv.2), r qv.1 / (qv.2.length : ℚ)

/-- Modelled from the spec (§4.4): rank of `p` after `k` synchronous
sweeps from the uniform initial assignment `1/N`. -/
def specRank (graph : GraphT) : Nat → Str → ℚ
  | 0, _ => 1 / (graph.length : ℚ)
  | k + 1, p => specNewRank graph (specRank graph k) p

/-- Python `pat in s` on strings: contiguous-substring containment. -/
def containsSub (pat s : Str) : Bool := (findPat pat s).isSome

/-- Python `str.lower()` (ASCII case-folding). -/
def lowerStr (s : Str) : Str := s.map Char.toLower

/-- `readyToSort[url] = v` (source line 220): Python dict assignment keeps
an existing key at its original position. -/
def setVal (m : List (Str × ℚ)) (k : Str) (v : ℚ) : List (Str × ℚ) :=
  if (getVal m k).isSome then
    m.map (fun kv => if kv.1 = k then (kv.1, v) else kv)
  else m ++ [(k, v)]

/-- The dict-building loops of `lookUpRanked` (source lines 216–220);
`keyword` is already lowercased by the caller. -/
def buildReady (index : IndexT) (keyword : Str) (ranks : RanksT) : List (Str × ℚ) :=
  index.foldl
    (fun m kv =>
      if containsSub keyword (lowerStr kv.1) then
        kv.2.foldl (fun m2 url => setVal m2 url (getRank ranks url)) m
      else m)
    []

/-- The descending-score order used to model
`sorted(readyToSort, key=readyToSort.get, reverse=True)`. -/
def scoreGe (m : List (Str × ℚ)) (a b : Str) : Prop := getRank m b ≤ getRank m a

instance scoreGeDec (m : List (Str × ℚ)) : DecidableRel (scoreGe m) :=
  fun a b => inferInstanceAs (Decidable (getRank m b ≤ getRank m a))

/-- `lookUpRanked(index, keyword, ranks)` from the source.  Python's
stable `sorted` is modelled by insertion sort on the dict's key list under
the descending-score relation; the properties stated about it (which URLs
appear, and that scores descend) are shared by every such sort. -/
def lookUpRanked (index : IndexT) (keyword : Str) (ranks : RanksT) : Option (List Str) :=
  let kw := lowerStr keyword
  let readyToSort := buildReady index kw ranks
  if readyToSort ≠ [] then
    some (List.insertionSort (scoreGe readyToSort) (readyToSort.map Prod.fst))
  else none

/-- Modelled from the spec (§4.5): the URLs contributed by all index keys
whose lowercased form contains the lowercased keyword.  Used only to
compare against `lookUpRanked`. -/
def contributions (index : IndexT) (keyword : Str) : List Str :=
  ((index.filter (fun kv => containsSub (lowerStr keyword) (lowerStr kv.1))).map Prod.snd).flatten

/-- A markup fragment whose anchor marker has an opening quote but no
closing quote: `<a href="http://x`. -/
def badPage : Str := "<a href=".data ++ quoteChar :: "http://x".data

/-- The markup of the spec's Link-Extractor end-to-end scenario:
`<a href="/x">l</a><a href="https://example.com">l2</a>`. -/
def examplePage : Str :=
  "<a href=".data ++ quoteChar :: "/x".data ++ quoteChar :: ">l</a><a href=".data ++
    quoteChar :: "https://example.com".data ++ quoteChar :: ">l2</a>".data

/-- The base URL of the spec's Link-Extractor end-to-end scenario. -/
def exampleBase : Str := "https://example.com".data

theorem getVal_append {β : Type} (l₁ l₂ : List (Str × β)) (k : Str) :
    getVal (l₁ ++ l₂) k =
      match getVal l₁ k with
      | some v => some v
      | none => getVal l₂ k := by
  induction l₁ with
  | nil => simp [getVal]
  | cons kv rest ih =>
    by_cases h : kv.1 = k <;> simp [getVal, h, ih]

theorem getVal_map_upd (w url : Str) (ix : IndexT) (tok : Str) :
    getVal (ix.map (fun kv => if kv.1 = w then (kv.1, kv.2 ++ [url]) else kv)) tok
      = if w = tok then (getVal ix tok).map (· ++ [url]) else getVal ix tok := by
  induction ix with
  | nil => simp [getVal]
  | cons kv rest ih =>
    simp only [List.map_cons]
    by_cases h1 : kv.1 = w
    · by_cases h2 : w = tok
      · subst h2
        simp [getVal, h1, ih]
      · have h3 : ¬ kv.1 = tok := by rw [h1]; exact h2
        simp [getVal, h1, h3, ih, h2]
    · by_cases h2 : kv.1 = tok
      · have h4 : ¬ w = tok := fun hw => h1 (by rw [h2, hw])
        have h5 : ¬ tok = w := fun hw => h4 hw.symm
        simp [getVal, h1, h2, ih, h4, h5]
      · simp [getVal, h1, h2, ih]

theorem lookupList_addToIndex (ix : IndexT) (w url tok : Str) :
    lookupList (addToIndex ix w url) tok =
      if w = tok then lookupList ix tok ++ [url] else lookupList ix tok := by
  unfold addToIndex
  by_cases hs : (getVal ix w).isSome
  · rw [if_pos hs]
    unfold lookupList
    rw [getVal_map_upd]
    by_cases h : w = tok
    · subst h
      rw [if_pos rfl, if_pos rfl]
      cases hv : getVal ix w with
      | none => simp [hv] at hs
      | some v => simp
    · simp [h]
  · rw [if_neg hs]
    unfold lookupList
    rw [getVal_append]
    by_cases h : w = tok
    · subst h
      have hn : getVal ix w = none := by
        cases hv : getVal ix w with
        | none => rfl
        | some v => simp [hv] at hs
      simp [hn, getVal]
    · cases hv : getVal ix tok with
      | none => simp [hv, getVal, h]
      | some v => simp [hv, getVal, h]

theorem lookupList_addWords (url tok : Str) :
    ∀ (words : List Str) (ix : IndexT),
      lookupList (words.foldl (fun ixx word => addToIndex ixx word url) ix) tok =
        lookupList ix tok ++ List.replicate (words.count tok) url := by
  intro words
  induction words with
  | nil => intro ix; simp
  | cons w ws ih =>
    intro ix
    rw [List.foldl_cons, ih, lookupList_addToIndex, List.count_cons]
    by_cases h : w = tok
    · subst h
      simp [List.append_assoc, List.replicate_succ]
    · have hb : (tok == w) = false := beq_eq_false_iff_ne.mpr (Ne.symm h)
      simp [h, hb]

/-- Claim C1: for the empty graph (`N = 0`), `computeRanks` returns an
empty rank mapping rather than faulting with a division by zero (in the
source, both per-page loops simply have no iterations, so no division is
ever evaluated). -/
theorem computeRanks_empty_graph : computeRanks ([] : GraphT) = [] := by
  decide

/-- Claim C8: indexing a page tokenizes the text by whitespace with no
case-folding and no punctuation stripping, and appends the URL once per
occurrence of each token to the list stored under that exact token key,
creating the key (with a singleton list) when absent; duplicates are
kept.  Stated as: after `addPageToIndex`, the list under any token `tok`
is the old list extended by one copy of `url` per whitespace-delimited
occurrence of `tok` in the text. -/
theorem addPageToIndex_count (index : IndexT) (url content tok : Str) :
    lookupList (addPageToIndex index url content) tok =
      lookupList index tok ++ List.replicate ((pySplit content).count tok) url :=
  lookupList_addWords url tok (pySplit content) index

theorem linkFinderAux_badPage_none :
    ∀ (fuel : Nat) (urls : List Str), linkFinderAux [] fuel badPage urls = none := by
  intro fuel
  induction fuel with
  | zero => intro urls; rfl
  | succ n ih =>
    intro urls
    have hstep : linkFinderAux [] (n + 1) badPage urls
        = linkFinderAux [] n badPage (insertUniq urls httpPre) := rfl
    rw [hstep]
    exact ih _

/-- Claim C2 (bug witness): on the markup `<a href="http://x` — an anchor
marker whose attribute value has no closing quote — the `linkFinder` loop
never terminates: `endQuote = -1`, so the slice `page[endQuote + 1:]`
leaves the page unchanged and every iteration re-scans the same marker
(repeatedly re-adding the truncated candidate `http://`).  The claim (and
spec §4.1/§7) say such a malformed marker is skipped and the scan
continues; the code instead loops forever, i.e. the fueled model returns
`none` at every fuel. -/
theorem linkFinder_unmatched_quote_diverges :
    (∀ (fuel : Nat) (urls : List Str), linkFinderAux [] fuel badPage urls = none) ∧
    linkFinder badPage = none :=
  ⟨linkFinderAux_badPage_none, linkFinderAux_badPage_none _ _⟩

theorem takeWhile_no_hash (link : Str) (h : '#' ∉ link) :
    link.takeWhile (fun c => c ≠ '#') = link := by
  rw [List.takeWhile_eq_self_iff]
  intro x hx
  simp only [ne_eq, decide_eq_true_eq]
  exact fun he => h (he ▸ hx)

theorem transformLink_spec (baseUrl link : Str) :
    (if keepLink (transformLink baseUrl link) then some (transformLink baseUrl link) else none)
      = specCandidate baseUrl link := by
  have h1 : (if '#' ∈ link then link.takeWhile (fun c => c ≠ '#') else link)
      = link.takeWhile (fun c => c ≠ '#') := by
    by_cases h : '#' ∈ link
    · rw [if_pos h]
    · rw [if_neg h, takeWhile_no_hash link h]
  simp only [transformLink, specCandidate, h1]
  set l1 := link.takeWhile (fun c => c ≠ '#') with hl1def
  set l2 := (if (['/', '/'] : Str).isPrefixOf l1 then "http:".data ++ l1 else l1) with hl2def
  cases hp : httpPre.isPrefixOf l2 <;> cases hq : httpsPre.isPrefixOf l2 <;>
    by_cases hb : baseUrl = [] <;> simp [keepLink, hp, hq, hb]

/-- Claim C6: the per-candidate processing of `linkFinder` — strip the
fragment from `#` on, prefix protocol-relative `//` values with `http:`,
resolve non-absolute values against the base when supplied (`base + path`
for `/`-leading values, else `base + '/' + path`; dropped with no base),
keeping exactly the values whose final form starts with `http://` or
`https://` — agrees with the spec's pipeline on every candidate and every
base; and on the spec's end-to-end scenario the extracted set is exactly
`{"https://example.com/x", "https://example.com"}`. -/
theorem linkFinder_candidate_pipeline :
    (∀ baseUrl link : Str,
      (if keepLink (transformLink baseUrl link) then some (transformLink baseUrl link) else none)
        = specCandidate baseUrl link) ∧
    (linkFinder examplePage exampleBase).map List.toFinset
      = some ({"https://example.com/x".data, "https://example.com".data} : Finset Str) := by
  refine ⟨transformLink_spec, ?_⟩
  decide

theorem computeRanks_single (seed : Str) (outs : List Str) (h : seed ∉ outs) :
    computeRanks [(seed, outs)] = [(seed, 1 / 5)] := by
  have hstep : ∀ r : RanksT, rankStep [(seed, outs)] r = [(seed, 1 / 5)] := by
    intro r
    simp [rankStep, newRankOf, damping, h]
    norm_num
  have h10 : numloops = 9 + 1 := rfl
  unfold computeRanks
  rw [h10, Function.iterate_succ_apply', hstep]

/-- Claim C5 (counterexample): on the graph `{seed: {}}` produced by a
crawl whose every fetch fails, `computeRanks` yields rank `1/5` (the exact
value of the source's `(1 - damping)/1`), not `1.0` as the claim states. -/
theorem failing_fetch_rank_counterexample :
    computeRanks [(['s'], [])] = [(['s'], 1 / 5)] ∧ ¬ ((1 : ℚ) / 5 = 1) := by
  constructor
  · exact computeRanks_single ['s'] [] (by simp)
  · norm_num

/-- Claim C5 (amended): a crawl from a single seed whose every fetch fails
(empty content) yields `Index = {}` and `Graph = {seed: {}}` with the seed
fetched exactly once, and `computeRanks` on that graph yields
`Ranks = {seed: 0.2}` (exactly `1/5`) after the 10 iterations — not the
claimed `{seed: 1.0}`. -/
theorem crawl_all_fetches_fail (seed : Str) :
    crawlWeb (fun _ => []) seed 2 = some ([], [(seed, [])], {seed}, [seed]) ∧
    computeRanks [(seed, [])] = [(seed, 1 / 5)] := by
  constructor
  · have hlf : linkFinder ([] : Str) = some [] := rfl
    have hadd : ∀ s : Str, addPageToIndex [] s [] = [] := fun _ => rfl
    simp [crawlWeb, crawlWebAux, hlf, hadd, unionL]
  · exact computeRanks_single seed [] (by simp)

theorem foldl_if_add {α : Type} (p : α → Prop) [DecidablePred p] (t : α → ℚ) :
    ∀ (l : List α) (init : ℚ),
      l.foldl (fun acc x => if p x then acc + t x else acc) init
        = init + ((l.filter (fun x => p x)).map t).sum := by
  intro l
  induction l with
  | nil => intro init; simp
  | cons x xs ih =>
    intro init
    by_cases h : p x
    · simp only [List.foldl_cons, if_pos h, List.filter_cons, h]
      rw [ih]
      simp [h, add_assoc]
    · simp only [List.foldl_cons, if_neg h, List.filter_cons]
      rw [ih]
      simp [h]

theorem newRankOf_eq_spec (g : GraphT) (hg : (g.map Prod.fst).Nodup)
    (ranks : RanksT) (p : Str) :
    newRankOf g ranks p = specNewRank g (getRank ranks) p := by
  have hnd : g.Nodup := hg.of_map
  unfold newRankOf specNewRank
  rw [foldl_if_add (fun nv => p ∈ nv.2)
    (fun nv => damping * (getRank ranks nv.1 / (nv.2.length : ℚ))) g
    ((1 - damping) / (g.length : ℚ))]
  congr 1
  rw [List.sum_map_mul_left]
  congr 1
  have hfil : (g.filter (fun nv => decide (p ∈ nv.2))).Nodup := hnd.filter _
  rw [← List.sum_toFinset _ hfil]
  congr 1
  ext qv
  simp [List.mem_filter]

theorem getRank_mapped (g : GraphT) (f : Str → ℚ) (u : Str)
    (hu : u ∈ g.map Prod.fst) :
    getRank (g.map (fun pv => (pv.1, f pv.1))) u = f u := by
  induction g with
  | nil => simp at hu
  | cons pv rest ih =>
    rw [List.map_cons, List.mem_cons] at hu
    by_cases h : pv.1 = u
    · simp [getRank, getVal, h]
    · have hu' : u ∈ rest.map Prod.fst := hu.resolve_left (fun he => h he.symm)
      simpa [getRank, getVal, h] using ih hu'

theorem specNewRank_congr (g : GraphT) (r r' : Str → ℚ) (p : Str)
    (h : ∀ u ∈ g.map Prod.fst, r u = r' u) :
    specNewRank g r p = specNewRank g r' p := by
  unfold specNewRank
  congr 1
  congr 1
  apply Finset.sum_congr rfl
  intro qv hqv
  rw [h qv.1 (List.mem_map_of_mem Prod.fst
    (List.mem_toFinset.mp (Finset.mem_filter.mp hqv).1))]

theorem computeRanks_iterate (g : GraphT) (hg : (g.map Prod.fst).Nodup) :
    ∀ k, (rankStep g)^[k] (g.map (fun pv => (pv.1, 1 / (g.length : ℚ))))
        = g.map (fun pv => (pv.1, specRank g k pv.1)) := by
  intro k
  induction k with
  | zero => simp [specRank]
  | succ n ih =>
    rw [Function.iterate_succ_apply', ih]
    unfold rankStep
    apply List.map_congr_left
    intro pv hpv
    have h2 : newRankOf g (g.map (fun pv => (pv.1, specRank g n pv.1))) pv.1
        = specRank g (n + 1) pv.1 := by
      rw [newRankOf_eq_spec g hg]
      show specNewRank g _ pv.1 = specNewRank g (specRank g n) pv.1
      exact specNewRank_congr g _ _ pv.1 (fun u hu => getRank_mapped g (specRank g n) u hu)
    rw [h2]

theorem computeRanks_eq_spec (g : GraphT) (hg : (g.map Prod.fst).Nodup) :
    computeRanks g = g.map (fun pv => (pv.1, specRank g numloops pv.1)) :=
  computeRanks_iterate g hg numloops

/-- Claim C4: for every non-empty well-formed graph, `computeRanks`
initialises every page's rank to `1/N`, then performs exactly 10
synchronous sweeps with damping `0.8`, each computing
`newRank(p) = (1-d)/N + d * Σ over q with p ∈ outlinks(q) of oldRank(q)/|outlinks(q)|`
from the previous sweep's ranks only and then replacing the whole mapping
at once (`specRank g 10` is exactly that 10-fold iteration from the
uniform start; non-emptiness is part of the claim, though the equation
also holds without it). -/
theorem computeRanks_ten_sweeps (g : GraphT) (hne : g ≠ [])
    (hg : (g.map Prod.fst).Nodup) :
    computeRanks g = g.map (fun pv => (pv.1, specRank g 10 pv.1)) :=
  computeRanks_eq_spec g hg

/-- Witness for C4 at the one-node self-loop graph. -/
theorem computeRanks_ten_sweeps_witness :
    (([(['a'], [['a']])] : GraphT) ≠ [] ∧
      (([(['a'], [['a']])] : GraphT).map Prod.fst).Nodup) ∧
    computeRanks [(['a'], [['a']])]
      = ([(['a'], [['a']])] : GraphT).map
          (fun pv => (pv.1, specRank [(['a'], [['a']])] 10 pv.1)) :=
  ⟨⟨by decide, by decide⟩, computeRanks_ten_sweeps _ (by decide) (by decide)⟩

theorem specRank_sum_one (g : GraphT) (hne : g ≠ [])
    (hkeys : (g.map Prod.fst).Nodup)
    (hvals : ∀ qv ∈ g, qv.2.Nodup)
    (hedge : ∀ qv ∈ g, qv.2 ≠ [])
    (hclosed : ∀ qv ∈ g, ∀ u ∈ qv.2, u ∈ g.map Prod.fst) :
    ∀ k, ((g.map Prod.fst).map (specRank g k)).sum = 1 := by
  have hN : ((g.length : ℚ)) ≠ 0 :=
    Nat.cast_ne_zero.mpr (by simpa [List.length_eq_zero] using hne)
  intro k
  induction k with
  | zero =>
    have h0 : (g.map Prod.fst).map (specRank g 0)
        = (g.map Prod.fst).map (fun _ => 1 / (g.length : ℚ)) :=
      List.map_congr_left (fun p _ => rfl)
    rw [h0, List.map_const', List.sum_replicate, List.length_map, nsmul_eq_mul,
      mul_comm, div_mul_cancel₀ _ hN]
  | succ n ih =>
    have hmap : (g.map Prod.fst).map (specRank g (n + 1))
        = (g.map Prod.fst).map (fun p => (1 - damping) / (g.length : ℚ)
            + damping * ∑ qv ∈ g.toFinset.filter (fun qv => p ∈ qv.2),
                specRank g n qv.1 / (qv.2.length : ℚ)) :=
      List.map_congr_left (fun p _ => rfl)
    have h1 : ((g.map Prod.fst).map (fun _ => (1 - damping) / (g.length : ℚ))).sum
        = 1 - damping := by
      rw [List.map_const', List.sum_replicate, List.length_map, nsmul_eq_mul,
        mul_comm, div_mul_cancel₀ _ hN]
    have h2 : ((g.map Prod.fst).map (fun p =>
        damping * ∑ qv ∈ g.toFinset.filter (fun qv => p ∈ qv.2),
          specRank g n qv.1 / (qv.2.length : ℚ))).sum = damping * 1 := by
      rw [List.sum_map_mul_left]
      congr 1
      rw [← List.sum_toFinset _ hkeys]
      have hstep1 : ∀ p : Str, (∑ qv ∈ g.toFinset.filter (fun qv => p ∈ qv.2),
          specRank g n qv.1 / (qv.2.length : ℚ))
          = ∑ qv ∈ g.toFinset,
              if p ∈ qv.2 then specRank g n qv.1 / (qv.2.length : ℚ) else 0 :=
        fun p => Finset.sum_filter _ _
      rw [Finset.sum_congr rfl (fun p _ => hstep1 p), Finset.sum_comm]
      have hinner : ∀ qv ∈ g.toFinset,
          (∑ p ∈ (g.map Prod.fst).toFinset,
            if p ∈ qv.2 then specRank g n qv.1 / (qv.2.length : ℚ) else 0)
            = specRank g n qv.1 := by
        intro qv hqv
        have hqv' : qv ∈ g := List.mem_toFinset.mp hqv
        rw [← Finset.sum_filter]
        have hset : (g.map Prod.fst).toFinset.filter (fun p => p ∈ qv.2)
            = qv.2.toFinset := by
          ext u
          simp only [Finset.mem_filter, List.mem_toFinset]
          exact ⟨fun h => h.2, fun h => ⟨hclosed qv hqv' u h, h⟩⟩
        have hlen : ((qv.2.length : ℚ)) ≠ 0 :=
          Nat.cast_ne_zero.mpr (by simpa [List.length_eq_zero] using hedge qv hqv')
        rw [hset, Finset.sum_const, List.toFinset_card_of_nodup (hvals qv hqv'),
          nsmul_eq_mul, mul_comm, div_mul_cancel₀ _ hlen]
      rw [Finset.sum_congr rfl hinner]
      have hKF : (g.map Prod.fst).toFinset = g.toFinset.image Prod.fst := by
        ext u
        simp
      have hinj : ∀ x ∈ g.toFinset, ∀ y ∈ g.toFinset, Prod.fst x = Prod.fst y → x = y :=
        fun x hx y hy =>
          List.inj_on_of_nodup_map hkeys (List.mem_toFinset.mp hx) (List.mem_toFinset.mp hy)
      calc ∑ qv ∈ g.toFinset, specRank g n qv.1
          = ∑ u ∈ g.toFinset.image Prod.fst, specRank g n u :=
            (Finset.sum_image hinj).symm
        _ = ((g.map Prod.fst).map (specRank g n)).sum := by
            rw [← hKF, List.sum_toFinset _ hkeys]
        _ = 1 := ih
    rw [hmap, List.sum_map_add, h1, h2]
    ring

/-- Claim C9 (counterexample): in the one-page graph `{a: {b}}` every page
has an outbound edge, yet the rank total after `computeRanks` is `1/5`,
nowhere near the claimed `1.0`: the edge points at `b`, which is not a
graph key, so all propagated mass leaks out of the key set. -/
theorem rank_sum_counterexample :
    (∀ qv ∈ ([(['a'], [['b']])] : GraphT), qv.2 ≠ []) ∧
    ((computeRanks [(['a'], [['b']])]).map Prod.snd).sum = 1 / 5 ∧
    ¬ ((1 : ℚ) / 5 = 1) := by
  refine ⟨by decide, ?_, by norm_num⟩
  rw [computeRanks_single ['a'] [['b']] (by decide)]
  simp

/-- Claim C9 (amended): for every non-empty well-formed graph in which
every page has at least one outbound edge and every outbound edge targets
a graph key (as holds for completed crawl graphs), the ranks returned by
`computeRanks` sum to exactly `1`.  Without the key-closure condition (or
with an empty graph) the claimed sum fails, as the counterexample shows. -/
theorem computeRanks_sum_eq_one (g : GraphT) (hne : g ≠ [])
    (hkeys : (g.map Prod.fst).Nodup)
    (hvals : ∀ qv ∈ g, qv.2.Nodup)
    (hedge : ∀ qv ∈ g, qv.2 ≠ [])
    (hclosed : ∀ qv ∈ g, ∀ u ∈ qv.2, u ∈ g.map Prod.fst) :
    ((computeRanks g).map Prod.snd).sum = 1 := by
  rw [computeRanks_eq_spec g hkeys]
  have hcomp : (g.map (fun pv => (pv.1, specRank g numloops pv.1))).map Prod.snd
      = (g.map Prod.fst).map (specRank g numloops) := by
    rw [List.map_map, List.map_map]
    rfl
  rw [hcomp]
  exact specRank_sum_one g hne hkeys hvals hedge hclosed numloops

/-- Witness for C9 (amended) at the one-node self-loop graph. -/
theorem computeRanks_sum_eq_one_witness :
    (([(['a'], [['a']])] : GraphT) ≠ []
      ∧ (([(['a'], [['a']])] : GraphT).map Prod.fst).Nodup
      ∧ (∀ qv ∈ ([(['a'], [['a']])] : GraphT), qv.2.Nodup)
      ∧ (∀ qv ∈ ([(['a'], [['a']])] : GraphT), qv.2 ≠ [])
      ∧ (∀ qv ∈ ([(['a'], [['a']])] : GraphT), ∀ u ∈ qv.2,
          u ∈ ([(['a'], [['a']])] : GraphT).map Prod.fst)) ∧
    ((computeRanks [(['a'], [['a']])]).map Prod.snd).sum = 1 :=
  ⟨⟨by decide, by decide, by decide, by decide, by decide⟩,
    computeRanks_sum_eq_one _ (by decide) (by decide) (by decide) (by decide) (by decide)⟩

theorem getVal_isSome_iff {β : Type} (m : List (Str × β)) (k : Str) :
    (getVal m k).isSome ↔ k ∈ m.map Prod.fst := by
  induction m with
  | nil =>
    exact iff_of_false (by simp [getVal]) (List.not_mem_nil k)
  | cons kv rest ih =>
    have hcons : getVal (kv :: rest) k = if kv.1 = k then some kv.2 else getVal rest k := rfl
    rw [hcons, List.map_cons, List.mem_cons]
    by_cases h : kv.1 = k
    · rw [if_pos h]
      exact iff_of_true rfl (Or.inl h.symm)
    · have h' : ¬ k = kv.1 := fun he => h he.symm
      rw [if_neg h, ih]
      exact ⟨Or.inr, fun hc => hc.resolve_left h'⟩

theorem getVal_map_set (k : Str) (v : ℚ) (m : List (Str × ℚ)) (k' : Str) :
    getVal (m.map (fun kv => if kv.1 = k then (kv.1, v) else kv)) k'
      = if k = k' then (getVal m k').map (fun _ => v) else getVal m k' := by
  induction m with
  | nil => simp [getVal]
  | cons kv rest ih =>
    simp only [List.map_cons]
    by_cases h1 : kv.1 = k
    · by_cases h2 : k = k'
      · subst h2
        simp [getVal, h1, ih]
      · have h3 : ¬ kv.1 = k' := by rw [h1]; exact h2
        simp [getVal, h1, h3, ih, h2]
    · by_cases h2 : kv.1 = k'
      · have h4 : ¬ k = k' := fun hw => h1 (by rw [h2, hw])
        have h5 : ¬ k' = k := fun hw => h4 hw.symm
        simp [getVal, h1, h2, ih, h4, h5]
      · simp [getVal, h1, h2, ih]

theorem getVal_setVal (m : List (Str × ℚ)) (k k' : Str) (v : ℚ) :
    getVal (setVal m k v) k' = if k = k' then some v else getVal m k' := by
  unfold setVal
  by_cases hs : (getVal m k).isSome
  · rw [if_pos hs, getVal_map_set]
    by_cases h : k = k'
    · subst h
      obtain ⟨w, hw⟩ := Option.isSome_iff_exists.mp hs
      simp [hw]
    · simp [h]
  · rw [if_neg hs, getVal_append]
    by_cases h : k = k'
    · subst h
      have hn : getVal m k = none := Option.not_isSome_iff_eq_none.mp hs
      simp [hn, getVal]
    · cases hv : getVal m k' with
      | none => simp [hv, getVal, h]
      | some w => simp [hv, getVal, h]

theorem getVal_foldSet (ranks : RanksT) (u : Str) :
    ∀ (urls : List Str) (m : List (Str × ℚ)),
      getVal (urls.foldl (fun m2 url => setVal m2 url (getRank ranks url)) m) u
        = if u ∈ urls then some (getRank ranks u) else getVal m u := by
  intro urls
  induction urls with
  | nil => intro m; simp
  | cons u0 us ih =>
    intro m
    rw [List.foldl_cons, ih]
    by_cases h : u ∈ us
    · simp [h]
    · rw [getVal_setVal]
      by_cases h0 : u0 = u
      · subst h0
        simp [h]
      · have h0' : ¬ u = u0 := fun he => h0 he.symm
        simp [h, h0, h0']

theorem getVal_buildFold (ranks : RanksT) (kwl u : Str) :
    ∀ (index : IndexT) (m : List (Str × ℚ)),
      getVal (index.foldl (fun m kv =>
          if containsSub kwl (lowerStr kv.1) then
            kv.2.foldl (fun m2 url => setVal m2 url (getRank ranks url)) m
          else m) m) u
        = if u ∈ ((index.filter
              (fun kv => containsSub kwl (lowerStr kv.1))).map Prod.snd).flatten
          then some (getRank ranks u) else getVal m u := by
  intro index
  induction index with
  | nil => intro m; simp
  | cons kv rest ih =>
    intro m
    rw [List.foldl_cons]
    cases hb : containsSub kwl (lowerStr kv.1) with
    | false =>
      simp only [hb, Bool.false_eq_true, if_false, List.filter_cons, ih]
    | true =>
      simp only [hb, if_true, List.filter_cons, ih, getVal_foldSet]
      by_cases h1 : u ∈ ((rest.filter
          (fun kv => containsSub kwl (lowerStr kv.1))).map Prod.snd).flatten <;>
        by_cases h2 : u ∈ kv.2 <;> simp [h1, h2]

theorem getVal_buildReady (ranks : RanksT) (keyword : Str) (index : IndexT) (u : Str) :
    getVal (buildReady index (lowerStr keyword) ranks) u
      = if u ∈ contributions index keyword then some (getRank ranks u) else none := by
  unfold buildReady contributions
  rw [getVal_buildFold]
  simp [getVal]

theorem buildReady_empty_iff (index : IndexT) (keyword : Str) (ranks : RanksT) :
    buildReady index (lowerStr keyword) ranks = [] ↔ contributions index keyword = [] := by
  constructor
  · intro h
    by_contra hc
    obtain ⟨u, hu⟩ := List.exists_mem_of_ne_nil _ hc
    have h1 := getVal_buildReady ranks keyword index u
    rw [h] at h1
    simp [getVal, hu] at h1
  · intro h
    cases hbr : buildReady index (lowerStr keyword) ranks with
    | nil => rfl
    | cons kv rest =>
      have h1 := getVal_buildReady ranks keyword index kv.1
      rw [hbr] at h1
      simp [getVal, h] at h1

/-- Claim C7 (counterexample): with index `{'a': []}` — a key that matches
the keyword `'a'` but carries no URLs — `lookUpRanked` returns the `None`
sentinel even though a matching key exists, refuting the claimed
"sentinel iff no key's lowercased form contains the keyword". -/
theorem lookUpRanked_sentinel_counterexample :
    lookUpRanked [(['a'], ([] : List Str))] ['a'] [] = none ∧
    containsSub (lowerStr ['a']) (lowerStr ['a']) = true := by
  constructor
  · rfl
  · rfl

/-- Claim C7 (amended): `lookUpRanked` returns the `None` sentinel
(distinct from an empty list) iff no URL is contributed by any index key
whose lowercased form contains the lowercased keyword (for indexes whose
matching keys map to at least one URL this is "iff no key matches");
otherwise it returns exactly the contributed URLs, each scored by
`ranks.get(url, 0)`, in descending-score order — and keyword `okt`
matches index key `Oktay123`. -/
theorem lookUpRanked_spec (index : IndexT) (keyword : Str) (ranks : RanksT) :
    (lookUpRanked index keyword ranks = none ↔ contributions index keyword = []) ∧
    (∀ l, lookUpRanked index keyword ranks = some l →
      l.toFinset = (contributions index keyword).toFinset ∧
      l.Sorted (fun a b => getRank ranks b ≤ getRank ranks a)) ∧
    lookUpRanked [("Oktay123".data, ["u".data])] "okt".data [] = some ["u".data] := by
  refine ⟨⟨?_, ?_⟩, ?_, by decide⟩
  · intro h
    rw [← buildReady_empty_iff index keyword ranks]
    by_contra hc
    simp [lookUpRanked, hc] at h
  · intro h
    have hb : buildReady index (lowerStr keyword) ranks = [] :=
      (buildReady_empty_iff index keyword ranks).mpr h
    simp [lookUpRanked, hb]
  · intro l hl
    by_cases hb : buildReady index (lowerStr keyword) ranks = []
    · simp [lookUpRanked, hb] at hl
    · have hl' : l = List.insertionSort (scoreGe (buildReady index (lowerStr keyword) ranks))
          ((buildReady index (lowerStr keyword) ranks).map Prod.fst) := by
        simp only [lookUpRanked, ne_eq, hb, not_false_iff, if_true, Option.some_inj] at hl
        exact hl.symm
      set m := buildReady index (lowerStr keyword) ranks with hm
      have hperm : l.Perm (m.map Prod.fst) := by
        rw [hl']
        exact List.perm_insertionSort _ _
      have hmem : ∀ u, u ∈ m.map Prod.fst ↔ u ∈ contributions index keyword := by
        intro u
        rw [← getVal_isSome_iff, hm, getVal_buildReady]
        by_cases hu : u ∈ contributions index keyword <;> simp [hu]
      have hscore : ∀ u ∈ m.map Prod.fst, getRank m u = getRank ranks u := by
        intro u hu
        have h1 : getVal m u = some (getRank ranks u) := by
          rw [hm, getVal_buildReady, if_pos ((hmem u).mp hu)]
        simp [getRank, h1]
      constructor
      · ext u
        simp only [List.mem_toFinset]
        rw [hperm.mem_iff]
        exact hmem u
      · letI : IsTotal Str (scoreGe m) := ⟨fun a b => le_total _ _⟩
        letI : IsTrans Str (scoreGe m) := ⟨fun a b c hab hbc => le_trans hbc hab⟩
        have hs : l.Sorted (scoreGe m) := by
          rw [hl']
          exact List.sorted_insertionSort _ _
        refine List.Pairwise.imp_of_mem ?_ hs
        intro a b ha hb2 hr
        have ha' : a ∈ m.map Prod.fst := (List.Perm.mem_iff hperm).mp ha
        have hb3 : b ∈ m.map Prod.fst := (List.Perm.mem_iff hperm).mp hb2
        unfold scoreGe at hr
        rw [hscore a ha', hscore b hb3] at hr
        exact hr

/-- Witness for C7 (amended) at the `okt`/`Oktay123` query. -/
theorem lookUpRanked_spec_witness :
    (["u".data] : List Str).toFinset
      = (contributions [("Oktay123".data, ["u".data])] "okt".data).toFinset ∧
    (["u".data] : List Str).Sorted
      (fun a b => getRank ([] : RanksT) b ≤ getRank ([] : RanksT) a) :=
  (lookUpRanked_spec [("Oktay123".data, ["u".data])] "okt".data []).2.1
    ["u".data] (by decide)

theorem insertUniq_nodup (urls : List Str) (link : Str) (h : urls.Nodup) :
    (insertUniq urls link).Nodup := by
  unfold insertUniq
  by_cases hm : link ∈ urls
  · simp [hm, h]
  · rw [if_neg hm, List.nodup_append]
    refine ⟨h, List.nodup_singleton _, ?_⟩
    intro a ha hb
    rw [List.mem_singleton] at hb
    exact hm (hb ▸ ha)

theorem linkFinderAux_nodup (baseUrl : Str) :
    ∀ (fuel : Nat) (page : Str) (urls l : List Str),
      urls.Nodup → linkFinderAux baseUrl fuel page urls = some l → l.Nodup := by
  intro fuel
  induction fuel with
  | zero =>
    intro page urls l _ h
    exact absurd h (by simp [linkFinderAux])
  | succ n ih =>
    intro page urls l hnd h
    simp only [linkFinderAux] at h
    cases hfp : findPat aHrefPat page with
    | none =>
      rw [hfp] at h
      simp only [Option.some_inj] at h
      exact h ▸ hnd
    | some sp =>
      rw [hfp] at h
      have hnd' : ∀ link1 : Str,
          (if keepLink link1 then insertUniq urls link1 else urls).Nodup := by
        intro link1
        by_cases hk : keepLink link1
        · simp only [hk, if_true]
          exact insertUniq_nodup _ _ hnd
        · simp only [hk, if_false]
          exact hnd
      exact ih _ _ _ (hnd' _) h

theorem mem_unionL {u : Str} {s t : List Str} :
    u ∈ unionL s t ↔ u ∈ s ∨ u ∈ t := by
  unfold unionL
  simp only [List.mem_append, List.mem_filter, decide_eq_true_eq]
  tauto

theorem unionL_nodup {s t : List Str} (hs : s.Nodup) (ht : t.Nodup) :
    (unionL s t).Nodup := by
  unfold unionL
  rw [List.nodup_append]
  refine ⟨hs, ht.filter _, ?_⟩
  intro a ha hmem
  have h2 := (List.mem_filter.mp hmem).2
  simp only [decide_eq_true_eq] at h2
  exact h2 ha

theorem unionL_length {s t : List Str} :
    (unionL s t).length ≤ s.length + t.length := by
  unfold unionL
  rw [List.length_append]
  exact Nat.add_le_add_left (List.length_filter_le _ _) _

theorem crawlWebAux_total (content : Str → Str) (U : Finset Str)
    (hU : ∀ u ∈ U, ∃ l, linkFinder (content u) = some l ∧ l.toFinset ⊆ U) :
    ∀ (fuel : Nat) (tocrawl : List Str) (crawled : Finset Str)
      (index : IndexT) (graph : GraphT) (fetched : List Str),
      tocrawl.Nodup → (∀ u ∈ tocrawl, u ∈ U) → crawled ⊆ U →
      (graph.map Prod.fst).toFinset = crawled →
      fetched.Nodup → fetched.toFinset = crawled →
      (∀ tok url, url ∈ lookupList index tok → url ∈ crawled) →
      (U.card - crawled.card) * (U.card + 1) + tocrawl.length < fuel →
      ∃ ix g cr log,
        crawlWebAux content fuel tocrawl crawled index graph fetched
          = some (ix, g, cr, log) ∧
        (g.map Prod.fst).toFinset = cr ∧ log.Nodup ∧
        (∀ tok url, url ∈ lookupList ix tok → url ∈ (g.map Prod.fst).toFinset) := by
  intro fuel
  induction fuel with
  | zero =>
    intro tocrawl crawled index graph fetched _ _ _ _ _ _ _ hfuel
    exact absurd hfuel (Nat.not_lt_zero _)
  | succ n ih =>
    intro tocrawl crawled index graph fetched hnd htoU hcrU hkeys hlognd hlogset hidx hfuel
    cases tocrawl with
    | nil =>
      refine ⟨index, graph, crawled, fetched, rfl, hkeys, hlognd, ?_⟩
      intro tok url hu
      rw [hkeys]
      exact hidx tok url hu
    | cons page rest =>
      have hpageU : page ∈ U := htoU page (List.mem_cons_self _ _)
      by_cases hpc : page ∈ crawled
      · have hstep : crawlWebAux content (n + 1) (page :: rest) crawled index graph fetched
            = crawlWebAux content n rest crawled index graph fetched := by
          simp [crawlWebAux, hpc]
        rw [hstep]
        refine ih rest crawled index graph fetched hnd.of_cons
          (fun u hu => htoU u (List.mem_cons_of_mem _ hu)) hcrU hkeys hlognd hlogset hidx ?_
        have hml := hfuel
        rw [List.length_cons] at hml
        generalize hP : (U.card - crawled.card) * (U.card + 1) = P at hml ⊢
        omega
      · obtain ⟨outl, houtl, hsub⟩ := hU page hpageU
        have houtnd : outl.Nodup :=
          linkFinderAux_nodup [] _ _ _ _ List.nodup_nil houtl
        have hstep : crawlWebAux content (n + 1) (page :: rest) crawled index graph fetched
            = crawlWebAux content n (unionL rest outl) (insert page crawled)
                (addPageToIndex index page (content page))
                (graph ++ [(page, outl)]) (fetched ++ [page]) := by
          simp [crawlWebAux, hpc, houtl]
        rw [hstep]
        have hpf : page ∉ fetched := fun hmem => hpc (hlogset ▸ List.mem_toFinset.mpr hmem)
        refine ih (unionL rest outl) (insert page crawled)
          (addPageToIndex index page (content page))
          (graph ++ [(page, outl)]) (fetched ++ [page])
          (unionL_nodup hnd.of_cons houtnd) ?_ (Finset.insert_subset hpageU hcrU) ?_ ?_ ?_ ?_ ?_
        · intro u hu
          rcases mem_unionL.mp hu with h1 | h2
          · exact htoU u (List.mem_cons_of_mem _ h1)
          · exact hsub (List.mem_toFinset.mpr h2)
        · rw [List.map_append, List.toFinset_append, hkeys]
          simp [Finset.insert_eq, Finset.union_comm]
        · rw [List.nodup_append]
          refine ⟨hlognd, List.nodup_singleton _, ?_⟩
          intro a ha hb
          rw [List.mem_singleton] at hb
          exact hpf (hb ▸ ha)
        · rw [List.toFinset_append, hlogset]
          simp [Finset.insert_eq, Finset.union_comm]
        · intro tok url hu
          rw [show addPageToIndex index page (content page)
              = (pySplit (content page)).foldl (fun ixx word => addToIndex ixx word page) index
            from rfl, lookupList_addWords] at hu
          rcases List.mem_append.mp hu with h1 | h2
          · exact Finset.mem_insert_of_mem (hidx tok url h1)
          · rw [List.eq_of_mem_replicate h2]
            exact Finset.mem_insert_self _ _
        · have hcins : (insert page crawled).card = crawled.card + 1 :=
            Finset.card_insert_of_not_mem hpc
          have hclt : crawled.card < U.card :=
            Finset.card_lt_card ⟨hcrU, fun hsub' => hpc (hsub' hpageU)⟩
          have houtlen : outl.length ≤ U.card := by
            rw [← List.toFinset_card_of_nodup houtnd]
            exact Finset.card_le_card hsub
          have hulen : (unionL rest outl).length ≤ rest.length + outl.length := unionL_length
          have hml := hfuel
          rw [List.length_cons] at hml
          have hsplit : (U.card - crawled.card) * (U.card + 1)
              = (U.card - crawled.card - 1) * (U.card + 1) + (U.card + 1) := by
            have h1 : U.card - crawled.card = (U.card - crawled.card - 1) + 1 := by omega
            calc (U.card - crawled.card) * (U.card + 1)
                = ((U.card - crawled.card - 1) + 1) * (U.card + 1) := by rw [← h1]
              _ = (U.card - crawled.card - 1) * (U.card + 1) + (U.card + 1) := add_one_mul _ _
          rw [hsplit] at hml
          rw [hcins]
          have hsub2 : U.card - (crawled.card + 1) = U.card - crawled.card - 1 := by omega
          rw [hsub2]
          generalize hP : (U.card - crawled.card - 1) * (U.card + 1) = P at hml ⊢
          omega

theorem computeRanks_keys (g : GraphT) :
    (computeRanks g).map Prod.fst = g.map Prod.fst := by
  unfold computeRanks
  have hgen : ∀ k, ((rankStep g)^[k]
      (g.map (fun pv => (pv.1, 1 / (g.length : ℚ))))).map Prod.fst = g.map Prod.fst := by
    intro k
    induction k with
    | zero =>
      rw [Function.iterate_zero_apply, List.map_map]
      rfl
    | succ m _ =>
      rw [Function.iterate_succ_apply']
      unfold rankStep
      rw [List.map_map]
      rfl
  exact hgen numloops

/-- Claim C3 (counterexample): with a fetch collaborator that returns the
unterminated anchor `<a href="http://x` for every URL, the very first
link extraction diverges (cf. C2), so `crawlWeb` does not terminate even
though the reachable URL universe is finite: the fueled model yields
`none` at every fuel. -/
theorem crawlWeb_diverges_on_bad_markup :
    ¬ ∃ (fuel : Nat) (r : IndexT × GraphT × Finset Str × List Str),
        crawlWeb (fun _ => badPage) ['s'] fuel = some r := by
  rintro ⟨fuel, r, hr⟩
  have h : crawlWeb (fun _ => badPage) ['s'] fuel = none := by
    cases fuel with
    | zero => rfl
    | succ n =>
      have hlf : linkFinder badPage = none := linkFinderAux_badPage_none _ _
      simp [crawlWeb, crawlWebAux, hlf]
  rw [h] at hr
  exact Option.noConfusion hr

/-- Claim C3 (amended): for every seed and every fetch behavior whose
reachable URL universe is contained in a finite, link-closed set `U` and
whose every page's link extraction terminates (the proviso forced by the
C2 divergence), the crawl loop terminates within `|U|·(|U|+1)+1`
iterations, the final visited set equals the key set of the returned
graph, and no URL is fetched more than once (the fetch log is
duplicate-free). -/
theorem crawlWeb_terminates (content : Str → Str) (seed : Str) (U : Finset Str)
    (hseed : seed ∈ U)
    (hU : ∀ u ∈ U, ∃ l, linkFinder (content u) = some l ∧ l.toFinset ⊆ U) :
    ∃ ix g cr log,
      crawlWeb content seed (U.card * (U.card + 1) + 2) = some (ix, g, cr, log) ∧
      (g.map Prod.fst).toFinset = cr ∧ log.Nodup := by
  obtain ⟨ix, g, cr, log, h1, h2, h3, _⟩ :=
    crawlWebAux_total content U hU (U.card * (U.card + 1) + 2) [seed] ∅ [] [] []
      (List.nodup_singleton _) (by simpa using hseed) (Finset.empty_subset _)
      (by simp) List.nodup_nil (by simp)
      (by intro tok url hu; simp [lookupList, getVal] at hu)
      (by
        simp only [Finset.card_empty, Nat.sub_zero, List.length_singleton]
        generalize U.card * (U.card + 1) = P
        omega)
  exact ⟨ix, g, cr, log, h1, h2, h3⟩

/-- Witness for C3: singleton universe, every fetch failing. -/
theorem crawlWeb_terminates_witness :
    ((['s'] : Str) ∈ ({['s']} : Finset Str)) ∧
    (∃ ix g cr log,
      crawlWeb (fun _ => []) ['s']
          (({['s']} : Finset Str).card * (({['s']} : Finset Str).card + 1) + 2)
        = some (ix, g, cr, log) ∧
      (g.map Prod.fst).toFinset = cr ∧ log.Nodup) :=
  ⟨by decide, crawlWeb_terminates (fun _ => []) ['s'] {['s']} (by decide)
    (fun _ _ => ⟨[], rfl, by simp⟩)⟩

/-- Claim C10 (implicit): on any terminating crawl, every URL occurring in
any list of the returned index is a key of the returned graph, and since
`computeRanks` assigns a rank to exactly the graph's keys, every indexed
URL has a rank — the missing-rank default-to-zero branch of the query
engine is unreachable on data produced by a single crawl-then-rank run. -/
theorem crawl_index_urls_ranked (content : Str → Str) (seed : Str) (U : Finset Str)
    (hseed : seed ∈ U)
    (hU : ∀ u ∈ U, ∃ l, linkFinder (content u) = some l ∧ l.toFinset ⊆ U) :
    ∃ ix g cr log,
      crawlWeb content seed (U.card * (U.card + 1) + 2) = some (ix, g, cr, log) ∧
      (∀ tok url, url ∈ lookupList ix tok → url ∈ g.map Prod.fst) ∧
      (∀ tok url, url ∈ lookupList ix tok → (getVal (computeRanks g) url).isSome) := by
  obtain ⟨ix, g, cr, log, h1, _, _, h4⟩ :=
    crawlWebAux_total content U hU (U.card * (U.card + 1) + 2) [seed] ∅ [] [] []
      (List.nodup_singleton _) (by simpa using hseed) (Finset.empty_subset _)
      (by simp) List.nodup_nil (by simp)
      (by intro tok url hu; simp [lookupList, getVal] at hu)
      (by
        simp only [Finset.card_empty, Nat.sub_zero, List.length_singleton]
        generalize U.card * (U.card + 1) = P
        omega)
  refine ⟨ix, g, cr, log, h1, ?_, ?_⟩
  · intro tok url hu
    exact List.mem_toFinset.mp (h4 tok url hu)
  · intro tok url hu
    rw [getVal_isSome_iff, computeRanks_keys]
    exact List.mem_toFinset.mp (h4 tok url hu)

/-- Witness for C10: singleton universe, every fetch failing. -/
theorem crawl_index_urls_ranked_witness :
    ((['t'] : Str) ∈ ({['t']} : Finset Str)) ∧
    (∃ ix g cr log,
      crawlWeb (fun _ => []) ['t']
          (({['t']} : Finset Str).card * (({['t']} : Finset Str).card + 1) + 2)
        = some (ix, g, cr, log) ∧
      (∀ tok url, url ∈ lookupList ix tok → url ∈ g.map Prod.fst) ∧
      (∀ tok url, url ∈ lookupList ix tok → (getVal (computeRanks g) url).isSome)) :=
  ⟨by decide, crawl_index_urls_ranked (fun _ => []) ['t'] {['t']} (by decide)
    (fun _ _ => ⟨[], rfl, by simp⟩)⟩

end CrawlWeb
